import Mathlib

/-
Verification of the crossword CSP solver (`generate.py`).

The solver operates on a grid model (variables with positions, directions and
lengths, plus a precomputed overlap relation) and a vocabulary.  The grid model
is produced by the external `crossword` module, which is not part of the core
sources; its interface is modelled from the specification.  All functions of
`CrosswordCreator` are translated directly from `generate.py`:
mutable `self.domains` becomes an explicitly threaded store of type
`Domains`, Python sets of words become lists (all operations used on them are
order-insensitive), and Python's stable `sort`/`sorted` is modelled by the
stable `List.insertionSort`.
-/

namespace CrosswordGen

/-- Modelled from the spec: direction of a grid slot, one of ACROSS or DOWN. -/
inductive Direction where
  | across
  | down
deriving DecidableEq, Repr

/-- Modelled from the spec: a variable is identified by (row, column,
direction, length); equality is based on all four fields. -/
structure Variable where
  row : Nat
  col : Nat
  dir : Direction
  length : Nat
deriving DecidableEq, Repr

/-- A word: an immutable character sequence, equality by value. -/
abbrev Word := List Char

/-- The Domain Store: per variable, the current candidate word list
(modelling the Python set `self.domains[var]`). -/
abbrev Domains := Variable → List Word

/-- An assignment: a partial mapping from variables to words, modelled as an
association list in insertion order (Python dict). -/
abbrev Assignment := List (Variable × Word)

/-- An arc: an ordered pair of variables. -/
abbrev Arc := Variable × Variable

/-- Modelled from the spec: the grid model (the external `crossword` module,
absent from the sources).  It exposes the set of variables (field `vars`,
modelling `crossword.variables` — that identifier is reserved in Lean), the
vocabulary `words`, and for every ordered pair of variables either `none` (no
shared cell) or a pair of indices `(ix, iy)` meaning character `ix` of x's
word must equal character `iy` of y's word. -/
structure Crossword where
  vars : List Variable
  words : List Word
  overlaps : Variable → Variable → Option (Nat × Nat)

/-- Modelled from the spec: `neighbors(v)` — all variables overlapping v. -/
def neighbors (c : Crossword) (v : Variable) : List Variable :=
  c.vars.filter (fun w => decide (w ≠ v) && (c.overlaps v w).isSome)

/-- `__init__`: `self.domains` maps every variable to a copy of the full
vocabulary. -/
def initDomains (c : Crossword) : Domains := fun _ => c.words

/-- `enforce_node_consistency`: for each variable, remove from its domain the
words whose length differs from the variable's length. -/
def enforceNodeConsistency (c : Crossword) (d : Domains) : Domains :=
  c.vars.foldl
    (fun ds v => Function.update ds v ((ds v).filter (fun w => w.length == v.length))) d

/-- The character-agreement test `x_word[overlap[0]] == y_word[overlap[1]]`,
with out-of-range indexing modelled by `Option` equality (in every reachable
use the indices are in range). -/
def agrees (ov : Nat × Nat) (wx wy : Word) : Bool :=
  decide (wx[ov.1]? = wy[ov.2]?)

/-- The inner loop of `revise`: some word in `domain(y)` agrees with `wx` at
the overlap indices. -/
def hasSupport (d : Domains) (y : Variable) (ov : Nat × Nat) (wx : Word) : Bool :=
  (d y).any (fun wy => agrees ov wx wy)

/-- `revise(x, y)`: if there is no overlap, nothing changes and the result is
`False`; otherwise every word of `domain(x)` with no support in `domain(y)` is
removed (in-place mutation of `self.domains[x]` becomes an update of the
store), and the flag records whether any word was removed. -/
def revise (c : Crossword) (d : Domains) (x y : Variable) : Bool × Domains :=
  match c.overlaps x y with
  | none => (false, d)
  | some ov =>
    ((d x).any (fun wx => !(hasSupport d y ov wx)),
     Function.update d x ((d x).filter (fun wx => hasSupport d y ov wx)))

/-- `queue.append(arc)` guarded by `arc not in queue`.  The queue is kept
reversed relative to the Python list, so that `queue.pop()` (from the end) is
taking the head and `append` is `cons`; the membership guard is
order-insensitive. -/
def enqueueOne (a : Arc) (q : List Arc) : List Arc :=
  if a ∈ q then q else a :: q

/-- The requeue step of `ac3`: for each neighbor of `x`, append `(x, neighbor)`
and `(neighbor, x)` unless already queued. -/
def enqueue (x : Variable) : List Variable → List Arc → List Arc
  | [], q => q
  | n :: ns, q => enqueue x ns (enqueueOne (n, x) (enqueueOne (x, n) q))

/-- The initial queue of `ac3(None)`: every ordered pair of distinct variables
with a defined overlap (the keys of `crossword.overlaps` with a non-`None`
value). -/
def initialQueue (c : Crossword) : List Arc :=
  (c.vars.map (fun x =>
    (c.vars.filter (fun y => decide (y ≠ x) && (c.overlaps x y).isSome)).map
      (fun y => (x, y)))).flatten

lemma mem_enqueueOne_iff (a b : Arc) (q : List Arc) :
    b ∈ enqueueOne a q ↔ b = a ∨ b ∈ q := by
  unfold enqueueOne
  split
  · exact ⟨Or.inr, fun h2 => h2.elim (fun e => by simp_all) id⟩
  · exact List.mem_cons

/-- Pointwise the revised store is no larger. -/
lemma revise_len_le (c : Crossword) (d : Domains) (x y z : Variable) :
    ((revise c d x y).2 z).length ≤ (d z).length := by
  cases h : c.overlaps x y with
  | none => simp [revise, h]
  | some ov =>
    simp only [revise, h]
    by_cases hz : z = x
    · subst hz; rw [Function.update_same]; exact List.length_filter_le _ _
    · rw [Function.update_noteq hz]

/-- A revision that reports `True` strictly shrinks `domain(x)`. -/
lemma revise_true_len_lt (c : Crossword) (d : Domains) (x y : Variable)
    (h : (revise c d x y).1 = true) :
    ((revise c d x y).2 x).length < (d x).length := by
  cases hov : c.overlaps x y with
  | none => simp [revise, hov] at h
  | some ov =>
    simp only [revise, hov] at h ⊢
    rw [Function.update_same]
    simp only [List.any_eq_true, Bool.not_eq_true'] at h
    rcases h with ⟨wx, hm, hs⟩
    exact List.length_filter_lt_length_iff_exists.2 ⟨wx, hm, by simp [hs]⟩

/-- Membership is preserved by `enqueue`. -/
lemma mem_enqueue_of_mem (x : Variable) :
    ∀ (ns : List Variable) (q : List Arc) (a : Arc), a ∈ q → a ∈ enqueue x ns q
  | [], _, _, h => h
  | n :: ns, q, a, h => by
    simp only [enqueue]
    exact mem_enqueue_of_mem x ns _ a
      ((mem_enqueueOne_iff _ _ _).2 (Or.inr ((mem_enqueueOne_iff _ _ _).2 (Or.inr h))))

/-- Every element of an `enqueue` result is an old element or one of the added
arcs. -/
lemma mem_enqueue_elim (x : Variable) :
    ∀ (ns : List Variable) (q : List Arc) (a : Arc), a ∈ enqueue x ns q →
      a ∈ q ∨ ∃ n ∈ ns, a = (x, n) ∨ a = (n, x)
  | [], _, _, h => Or.inl h
  | n :: ns, q, a, h => by
    simp only [enqueue] at h
    rcases mem_enqueue_elim x ns _ a h with h2 | ⟨m, hm, heq⟩
    · rw [mem_enqueueOne_iff, mem_enqueueOne_iff] at h2
      rcases h2 with h2 | h2 | h2
      · exact Or.inr ⟨n, List.mem_cons_self _ _, Or.inr h2⟩
      · exact Or.inr ⟨n, List.mem_cons_self _ _, Or.inl h2⟩
      · exact Or.inl h2
    · exact Or.inr ⟨m, List.mem_cons_of_mem _ hm, heq⟩

/-- The arcs `(x, n)` and `(n, x)` are present after `enqueue`. -/
lemma enqueue_mem_pair (x : Variable) :
    ∀ (ns : List Variable) (q : List Arc) (n : Variable), n ∈ ns →
      (x, n) ∈ enqueue x ns q ∧ (n, x) ∈ enqueue x ns q
  | [], _, _, h => by simp at h
  | m :: ms, q, n, h => by
    rcases List.mem_cons.1 h with rfl | hm
    · constructor <;>
      · simp only [enqueue]
        apply mem_enqueue_of_mem
        rw [mem_enqueueOne_iff, mem_enqueueOne_iff]
        simp
    · exact enqueue_mem_pair x ms _ n hm

lemma neighbors_subset (c : Crossword) (v : Variable) :
    ∀ w ∈ neighbors c v, w ∈ c.vars := by
  intro w hw
  simp only [neighbors, List.mem_filter] at hw
  exact hw.1

/-- Strict decrease of the termination measure for the revised branch. -/
lemma measure_decr_true (c : Crossword) (d : Domains) (x y : Variable)
    (rest : List Arc) (h : (revise c d x y).1 = true) :
    (((enqueue x (neighbors c x) rest).map Prod.fst ++ c.vars).toFinset.sum
        (fun v => ((revise c d x y).2 v).length))
      < ((((x, y) :: rest).map Prod.fst ++ c.vars).toFinset.sum
        (fun v => (d v).length)) := by
  have hsub : ((enqueue x (neighbors c x) rest).map Prod.fst ++ c.vars).toFinset ⊆
      (((x, y) :: rest).map Prod.fst ++ c.vars).toFinset := by
    intro v hv
    rw [List.mem_toFinset, List.mem_append] at hv ⊢
    rcases hv with hv | hv
    · rcases List.mem_map.1 hv with ⟨a, ha, rfl⟩
      rcases mem_enqueue_elim x (neighbors c x) rest a ha with ha2 | ⟨n, hn, rfl | rfl⟩
      · exact Or.inl (by rw [List.map_cons]; exact List.mem_cons_of_mem _ (List.mem_map_of_mem _ ha2))
      · exact Or.inl (by rw [List.map_cons]; exact List.mem_cons_self _ _)
      · exact Or.inr (neighbors_subset c x n hn)
    · exact Or.inr hv
  have hstep : ((((x, y) :: rest).map Prod.fst ++ c.vars).toFinset.sum
      (fun v => ((revise c d x y).2 v).length))
      < ((((x, y) :: rest).map Prod.fst ++ c.vars).toFinset.sum
        (fun v => (d v).length)) := by
    apply Finset.sum_lt_sum
    · intro i _; exact revise_len_le c d x y i
    · refine ⟨x, ?_, revise_true_len_lt c d x y h⟩
      rw [List.mem_toFinset, List.mem_append]
      exact Or.inl (by rw [List.map_cons]; exact List.mem_cons_self _ _)
  exact lt_of_le_of_lt (Finset.sum_le_sum_of_subset hsub) hstep

/-- The measure does not grow for the unrevised branch. -/
lemma measure_le_false (c : Crossword) (d : Domains) (x y : Variable)
    (rest : List Arc) :
    ((rest.map Prod.fst ++ c.vars).toFinset.sum
        (fun v => ((revise c d x y).2 v).length))
      ≤ ((((x, y) :: rest).map Prod.fst ++ c.vars).toFinset.sum
        (fun v => (d v).length)) := by
  have hsub : (rest.map Prod.fst ++ c.vars).toFinset ⊆
      (((x, y) :: rest).map Prod.fst ++ c.vars).toFinset := by
    intro v hv
    rw [List.mem_toFinset, List.mem_append] at hv ⊢
    rw [List.map_cons]
    rcases hv with hv | hv
    · exact Or.inl (List.mem_cons_of_mem _ hv)
    · exact Or.inr hv
  have h1 : ((rest.map Prod.fst ++ c.vars).toFinset.sum
      (fun v => ((revise c d x y).2 v).length))
      ≤ ((rest.map Prod.fst ++ c.vars).toFinset.sum (fun v => (d v).length)) := by
    apply Finset.sum_le_sum
    intro i _; exact revise_len_le c d x y i
  exact le_trans h1 (Finset.sum_le_sum_of_subset hsub)

/-- The loop of `ac3`: pop an arc, revise, on a change test emptiness and
requeue the neighbors in both directions.  Termination: the total domain size
over the variables that can ever head an arc, then the queue length. -/
def ac3Go (c : Crossword) (d : Domains) (q : List Arc) : Bool × Domains :=
  match q with
  | [] => (true, d)
  | (x, y) :: rest =>
    match hrev : revise c d x y with
    | (true, d2) =>
      if (d2 x).length = 0 then (false, d2)
      else ac3Go c d2 (enqueue x (neighbors c x) rest)
    | (false, d2) => ac3Go c d2 rest
termination_by
  (((q.map Prod.fst ++ c.vars).toFinset.sum (fun v => (d v).length)), q.length)
decreasing_by
  · apply Prod.Lex.left
    have h2 := measure_decr_true c d x y rest (by rw [hrev])
    rw [hrev] at h2
    exact h2
  · have hle := measure_le_false c d x y rest
    rw [hrev] at hle
    rcases lt_or_eq_of_le hle with hlt | heq
    · exact Prod.Lex.left _ _ hlt
    · rw [heq]
      exact Prod.Lex.right _ (by simp)

/-- `ac3(arcs=None)`: with no initial arcs the queue is every overlapping
ordered pair; otherwise the supplied arcs are used. -/
def ac3 (c : Crossword) (d : Domains) (arcs : Option (List Arc)) : Bool × Domains :=
  match arcs with
  | none => ac3Go c d (initialQueue c)
  | some q => ac3Go c d q

/-- Python dict access `assignment[v]` / `v in assignment` (keys are unique,
so first match suffices). -/
def lookupA : Assignment → Variable → Option Word
  | [], _ => none
  | (u, w) :: rest, v => if u = v then some w else lookupA rest v

/-- `var in assignment`. -/
def isAssigned (a : Assignment) (v : Variable) : Bool :=
  (lookupA a v).isSome

/-- `assignment_complete`: every crossword variable has a value. -/
def assignmentComplete (c : Crossword) (a : Assignment) : Bool :=
  c.vars.all (fun v => isAssigned a v)

/-- The final check of `consistent`: `len(set(all_values)) == len(all_values)`. -/
def valuesDistinct (a : Assignment) : Bool :=
  ((a.map Prod.snd).dedup.length == (a.map Prod.snd).length)

/-- `consistent(assignment)`: word lengths match, every assigned overlapping
neighbor pair agrees at the overlap indices, and all values are distinct.
The `None`-overlap arm is unreachable for members of `neighbors` (which all
have a defined overlap); Python would raise there. -/
def consistent (c : Crossword) (a : Assignment) : Bool :=
  (a.all (fun p =>
    (p.2.length == p.1.length) &&
    (neighbors c p.1).all (fun n =>
      match lookupA a n with
      | none => true
      | some wn =>
        match c.overlaps p.1 n with
        | some ov => agrees ov p.2 wn
        | none => true)))
  && valuesDistinct a

/-- The `words_ruled_out` counter of `order_domain_values`: over all unassigned
neighbors, the number of their candidate words disagreeing with `w` at the
overlap indices.  The `None`-overlap arm is unreachable (neighbors always have
a defined overlap); Python would raise there. -/
def ruledOutCount (c : Crossword) (d : Domains) (a : Assignment) (var : Variable)
    (w : Word) : Nat :=
  (((neighbors c var).filter (fun n => !(isAssigned a n))).map (fun n =>
    match c.overlaps var n with
    | some ov => (d n).countP (fun wn => !(agrees ov w wn))
    | none => 0)).sum

/-- `order_domain_values`: the domain of `var` sorted ascending by
eliminated-count (`sorted` is stable, as is `List.insertionSort`). -/
def orderDomainValues (c : Crossword) (d : Domains) (a : Assignment)
    (var : Variable) : List Word :=
  (d var).insertionSort
    (fun w1 w2 => ruledOutCount c d a var w1 ≤ ruledOutCount c d a var w2)

/-- The tail of `select_unassigned_variable`: if more than one variable ties
for the minimum, sort the tied list by descending neighbor count (Python's
stable `sort` with `reverse=True`); return the first element. -/
def selectLowest (c : Crossword) (lowest : List Variable) : Option Variable :=
  if 1 < lowest.length then
    (lowest.insertionSort
      (fun u v => (neighbors c v).length ≤ (neighbors c u).length)).head?
  else lowest.head?

/-- `select_unassigned_variable`: among unassigned variables, one of minimal
domain size; ties broken by `selectLowest`.  `none` models the `ValueError`
that Python's `min` raises on an empty collection. -/
def selectUnassignedVariable (c : Crossword) (d : Domains) (a : Assignment) :
    Option Variable :=
  match ((c.vars.filter (fun v => !(isAssigned a v))).map (fun v => (d v).length)).min? with
  | none => none
  | some m =>
    selectLowest c
      ((c.vars.filter (fun v => !(isAssigned a v))).filter (fun v => (d v).length == m))

/-- The number of variables not yet assigned (the backtracking measure). -/
def unassignedCount (c : Crossword) (a : Assignment) : Nat :=
  (c.vars.filter (fun v => !(isAssigned a v))).length

lemma lookupA_append (a : Assignment) (v u : Variable) (w : Word) :
    lookupA (a ++ [(u, w)]) v =
      match lookupA a v with
      | some r => some r
      | none => if u = v then some w else none := by
  induction a with
  | nil => simp [lookupA]
  | cons p rest ih =>
    obtain ⟨pu, pw⟩ := p
    by_cases h : pu = v
    · simp [lookupA, h]
    · rw [List.cons_append]
      have h1 : lookupA ((pu, pw) :: (rest ++ [(u, w)])) v = lookupA (rest ++ [(u, w)]) v := by
        simp only [lookupA, if_neg h]
      have h2 : lookupA ((pu, pw) :: rest) v = lookupA rest v := by
        simp only [lookupA, if_neg h]
      rw [h1, h2, ih]

lemma isAssigned_append (a : Assignment) (u v : Variable) (w : Word) :
    isAssigned (a ++ [(u, w)]) v = (isAssigned a v || decide (u = v)) := by
  rw [isAssigned, lookupA_append]
  cases h : lookupA a v with
  | none =>
    rw [isAssigned, h]
    by_cases hu : u = v <;> simp [hu]
  | some r => rw [isAssigned, h]; simp

lemma selectLowest_mem (c : Crossword) (lowest : List Variable) (v : Variable)
    (h : selectLowest c lowest = some v) : v ∈ lowest := by
  unfold selectLowest at h
  split at h
  · have h2 := List.mem_of_mem_head? h
    rwa [List.mem_insertionSort] at h2
  · exact List.mem_of_mem_head? h

/-- A variable returned by `select_unassigned_variable` is a crossword
variable that is not yet assigned. -/
lemma selectUnassignedVariable_mem (c : Crossword) (d : Domains) (a : Assignment)
    (v : Variable) (h : selectUnassignedVariable c d a = some v) :
    v ∈ c.vars ∧ isAssigned a v = false := by
  unfold selectUnassignedVariable at h
  split at h
  · exact absurd h (by simp)
  · have hmem := selectLowest_mem _ _ _ h
    have h2 := List.mem_of_mem_filter hmem
    rw [List.mem_filter] at h2
    exact ⟨h2.1, by simpa using h2.2⟩

lemma countP_lt_of_strict {α : Type} (p q : α → Bool) :
    ∀ (l : List α), (∀ x ∈ l, p x = true → q x = true) →
      ∀ x ∈ l, q x = true → p x = false → l.countP p < l.countP q
  | [], _, x, hx, _, _ => by simp at hx
  | y :: l, himp, x, hx, hq, hp => by
    have hif1 : (if (false : Bool) = true then 1 else 0) = 0 := by simp
    have hif2 : (if (true : Bool) = true then 1 else 0) = 1 := by simp
    rcases List.mem_cons.1 hx with rfl | hx2
    · rw [List.countP_cons, List.countP_cons, hp, hq, hif1, hif2]
      have hle : l.countP p ≤ l.countP q :=
        List.countP_mono_left (fun z hz => himp z (List.mem_cons_of_mem _ hz))
      omega
    · rw [List.countP_cons, List.countP_cons]
      have hlt := countP_lt_of_strict p q l
        (fun z hz => himp z (List.mem_cons_of_mem _ hz)) x hx2 hq hp
      have hyp : (if p y = true then 1 else 0) ≤ (if q y = true then 1 else 0) := by
        by_cases hy : p y = true
        · rw [if_pos hy, if_pos (himp y (List.mem_cons_self _ _) hy)]
        · rw [if_neg hy]; exact Nat.zero_le _
      omega

/-- Extending an assignment at a fresh crossword variable strictly decreases
the number of unassigned variables. -/
lemma unassignedCount_append_lt (c : Crossword) (a : Assignment) (v : Variable)
    (w : Word) (hv : v ∈ c.vars) (hu : isAssigned a v = false) :
    unassignedCount c (a ++ [(v, w)]) < unassignedCount c a := by
  unfold unassignedCount
  rw [← List.countP_eq_length_filter, ← List.countP_eq_length_filter]
  apply countP_lt_of_strict _ _ c.vars
  · intro x _ hx
    rw [Bool.not_eq_true'] at hx ⊢
    rw [isAssigned_append] at hx
    exact (Bool.or_eq_false_iff.1 hx).1
  · exact hv
  · rw [Bool.not_eq_true', hu]
  · rw [Bool.not_eq_false', isAssigned_append]
    simp

mutual

/-- `backtrack(assignment)`: return the assignment once complete; otherwise
select an unassigned variable and try its candidate words in LCV order.  The
`none` arm of the selection is unreachable (the assignment is incomplete
there); Python's `min` would raise rather than return a sentinel. -/
def backtrack (c : Crossword) (d : Domains) (a : Assignment) :
    Option Assignment × Domains :=
  if assignmentComplete c a then (some a, d)
  else
    match hsel : selectUnassignedVariable c d a with
    | none => (none, d)
    | some var =>
      tryWords c d a var (selectUnassignedVariable_mem c d a var hsel)
        (orderDomainValues c d a var)
termination_by (unassignedCount c a, 1, 0)

/-- The `for word in self.order_domain_values(...)` loop of `backtrack`:
extend the assignment (`new_assignment[var] = word` appends, since `var` is a
fresh key), check consistency, run the seeded `ac3` inference, and recurse.
`prev_domains = self.domains.copy()` is a shallow copy — the per-variable sets
are shared — so the later `self.domains = prev_domains` cannot undo in-place
removals: extensionally the loop continues with the store produced by `ac3`
and the recursive call, which is what this translation does. -/
def tryWords (c : Crossword) (d : Domains) (a : Assignment) (var : Variable)
    (hv : var ∈ c.vars ∧ isAssigned a var = false) :
    List Word → Option Assignment × Domains
  | [] => (none, d)
  | w :: ws =>
    if consistent c (a ++ [(var, w)]) then
      match backtrack c
          (ac3 c d (some ((neighbors c var).map (fun x => (x, var))))).2
          (a ++ [(var, w)]) with
      | (some res, d2) => (some res, d2)
      | (none, d2) => tryWords c d2 a var hv ws
    else tryWords c d a var hv ws
termination_by ws => (unassignedCount c a, 0, ws.length)
decreasing_by
  all_goals first
    | exact Prod.Lex.left _ _ (unassignedCount_append_lt c a var w hv.1 hv.2)
    | exact Prod.Lex.right _ (Prod.Lex.left _ _ (by omega))
    | exact Prod.Lex.right _ (Prod.Lex.right _ (by simp [List.length_cons]))

end

/-- `solve`: enforce node consistency, run full `ac3` (its Boolean result is
ignored by the source), then return `backtrack({})`.  The final Domain Store
is returned alongside, modelling the post-call `self.domains`. -/
def solve (c : Crossword) : Option Assignment × Domains :=
  backtrack c (ac3 c (enforceNodeConsistency c (initDomains c)) none).2 []

/-! Section: Well-formedness of the grid model and semantic predicates -/

/-- Well-formedness of a grid model, as guaranteed by the spec: no variable
overlaps itself, the overlap relation is symmetric with the indices swapped,
and the variable list is duplicate-free. -/
def WF (c : Crossword) : Prop :=
  c.vars.Nodup ∧
  (∀ x ∈ c.vars, c.overlaps x x = none) ∧
  (∀ x ∈ c.vars, ∀ y ∈ c.vars,
    c.overlaps y x = (c.overlaps x y).map (fun p => (p.2, p.1)))

/-- The arc `(x, y)` is consistent in the store `d`: either no overlap, or
every word of `domain(x)` has some support in `domain(y)`. -/
def arcOKB (c : Crossword) (d : Domains) (x y : Variable) : Bool :=
  match c.overlaps x y with
  | none => true
  | some ov => (d x).all (fun wx => hasSupport d y ov wx)

/-- Full arc consistency over the crossword's variables. -/
def ArcConsistent (c : Crossword) (d : Domains) : Prop :=
  ∀ x ∈ c.vars, ∀ y ∈ c.vars, arcOKB c d x y = true

lemma arcOKB_iff (c : Crossword) (d : Domains) (x y : Variable) :
    arcOKB c d x y = true ↔
      ∀ ov, c.overlaps x y = some ov →
        ∀ wx ∈ d x, ∃ wy ∈ d y, wx[ov.1]? = wy[ov.2]? := by
  unfold arcOKB
  cases hov : c.overlaps x y with
  | none => simp
  | some ov =>
    simp only [List.all_eq_true, hasSupport, List.any_eq_true, agrees,
      decide_eq_true_eq, Option.some.injEq]
    constructor
    · rintro h o rfl wx hwx
      rcases h wx hwx with ⟨wy, h1, h2⟩
      exact ⟨wy, h1, h2⟩
    · intro h wx hwx
      rcases h ov rfl wx hwx with ⟨wy, h1, h2⟩
      exact ⟨wy, h1, h2⟩

/-! Section: Basic properties of `revise` -/

lemma revise_none_eq (c : Crossword) (d : Domains) (x y : Variable)
    (h : c.overlaps x y = none) : revise c d x y = (false, d) := by
  simp [revise, h]

lemma revise_snd_apply_ne (c : Crossword) (d : Domains) (x y z : Variable)
    (hz : z ≠ x) : (revise c d x y).2 z = d z := by
  cases hov : c.overlaps x y with
  | none => simp [revise, hov]
  | some ov => simp only [revise, hov]; exact Function.update_noteq hz _ _

lemma revise_snd_apply_self (c : Crossword) (d : Domains) (x y : Variable)
    (ov : Nat × Nat) (hov : c.overlaps x y = some ov) :
    (revise c d x y).2 x = (d x).filter (fun wx => hasSupport d y ov wx) := by
  simp only [revise, hov]
  exact Function.update_same _ _ _

lemma revise_sub (c : Crossword) (d : Domains) (x y z : Variable) (w : Word)
    (h : w ∈ (revise c d x y).2 z) : w ∈ d z := by
  by_cases hz : z = x
  · rw [hz] at h ⊢
    cases hov : c.overlaps x y with
    | none => rw [revise_none_eq c d x y hov] at h; exact h
    | some ov =>
      rw [revise_snd_apply_self c d x y ov hov] at h
      exact List.mem_of_mem_filter h
  · rwa [revise_snd_apply_ne c d x y z hz] at h

/-- A revision reporting `False` leaves the store unchanged. -/
lemma revise_false_snd (c : Crossword) (d : Domains) (x y : Variable)
    (h : (revise c d x y).1 = false) : (revise c d x y).2 = d := by
  cases hov : c.overlaps x y with
  | none => rw [revise_none_eq c d x y hov]
  | some ov =>
    simp only [revise, hov] at h ⊢
    rw [List.any_eq_false] at h
    have hfix : (d x).filter (fun wx => hasSupport d y ov wx) = d x := by
      rw [List.filter_eq_self]
      intro wx hwx
      have h2 := h wx hwx
      simpa using h2
    rw [hfix]
    exact Function.update_eq_self x d

/-- A revision reporting `False` witnesses that the arc was already
consistent. -/
lemma revise_false_arcOK (c : Crossword) (d : Domains) (x y : Variable)
    (h : (revise c d x y).1 = false) : arcOKB c d x y = true := by
  cases hov : c.overlaps x y with
  | none => simp [arcOKB, hov]
  | some ov =>
    simp only [revise, hov] at h
    rw [List.any_eq_false] at h
    simp only [arcOKB, hov, List.all_eq_true]
    intro wx hwx
    have h2 := h wx hwx
    simpa using h2

/-- After `revise(x, y)` the arc `(x, y)` is consistent. -/
lemma revise_arcOK (c : Crossword) (d : Domains) (x y : Variable) (hyx : y ≠ x) :
    arcOKB c (revise c d x y).2 x y = true := by
  cases hov : c.overlaps x y with
  | none => simp [arcOKB, hov]
  | some ov =>
    simp only [arcOKB, hov, List.all_eq_true]
    intro wx hwx
    rw [revise_snd_apply_self c d x y ov hov] at hwx
    have hsup := List.of_mem_filter hwx
    unfold hasSupport at hsup ⊢
    rwa [revise_snd_apply_ne c d x y y hyx]

/-- Arc consistency of `(a, b)` survives shrinking `domain(a)` while
`domain(b)` is untouched. -/
lemma arcOK_mono (c : Crossword) (d d2 : Domains) (a b : Variable)
    (hsub : ∀ w ∈ d2 a, w ∈ d a) (hb : d2 b = d b)
    (h : arcOKB c d a b = true) : arcOKB c d2 a b = true := by
  cases hov : c.overlaps a b with
  | none => simp [arcOKB, hov]
  | some ov =>
    simp only [arcOKB, hov, List.all_eq_true] at h ⊢
    intro wx hwx
    have h2 := h wx (hsub wx hwx)
    unfold hasSupport at h2 ⊢
    rwa [hb]

lemma revise_true_ne_nil (c : Crossword) (d : Domains) (x y : Variable)
    (h : (revise c d x y).1 = true) : d x ≠ [] := by
  intro hnil
  have := revise_true_len_lt c d x y h
  rw [hnil] at this
  simp at this

/-! Section: The AC-3 invariant and the main `ac3` lemma -/

/-- All queued arcs mention crossword variables. -/
def QueueWF (c : Crossword) (q : List Arc) : Prop :=
  ∀ p ∈ q, p.1 ∈ c.vars ∧ p.2 ∈ c.vars

/-- The classic AC-3 loop invariant: every overlapping arc is queued or
already consistent. -/
def AC3Inv (c : Crossword) (d : Domains) (q : List Arc) : Prop :=
  ∀ x ∈ c.vars, ∀ y ∈ c.vars, (c.overlaps x y).isSome →
    ((x, y) ∈ q ∨ arcOKB c d x y = true)

lemma overlaps_ne_of_some (c : Crossword) (hwf : WF c) (x y : Variable)
    (hx : x ∈ c.vars) (hs : (c.overlaps x y).isSome) : y ≠ x := by
  intro heq
  rw [heq] at hs
  rw [hwf.2.1 x hx] at hs
  simp at hs

lemma mem_neighbors_of_overlap (c : Crossword) (hwf : WF c) (x z : Variable)
    (hx : x ∈ c.vars) (hz : z ∈ c.vars) (hs : (c.overlaps z x).isSome) :
    z ∈ neighbors c x := by
  have hxz : (c.overlaps x z).isSome := by
    rcases Option.isSome_iff_exists.1 hs with ⟨ov, hov⟩
    have hsym := hwf.2.2 z hz x hx
    rw [hov] at hsym
    rw [hsym]
    simp
  have hne : z ≠ x := by
    intro heq
    rw [heq] at hs
    rw [hwf.2.1 x hx] at hs
    simp at hs
  rw [neighbors, List.mem_filter]
  exact ⟨hz, by simp [hne, hxz]⟩

/-! Section: Unfolding equations for the `ac3` loop -/

lemma ac3Go_nil (c : Crossword) (d : Domains) : ac3Go c d [] = (true, d) := by
  rw [ac3Go]

lemma ac3Go_cons_empty (c : Crossword) (d : Domains) (x y : Variable)
    (rest : List Arc) (d2 : Domains) (hrev : revise c d x y = (true, d2))
    (hlen : (d2 x).length = 0) : ac3Go c d ((x, y) :: rest) = (false, d2) := by
  rw [ac3Go]
  split
  next d3 hr =>
    rw [hrev] at hr
    cases hr
    rw [if_pos hlen]
  next d3 hr =>
    rw [hrev] at hr
    cases hr

lemma ac3Go_cons_requeue (c : Crossword) (d : Domains) (x y : Variable)
    (rest : List Arc) (d2 : Domains) (hrev : revise c d x y = (true, d2))
    (hlen : ¬(d2 x).length = 0) :
    ac3Go c d ((x, y) :: rest) = ac3Go c d2 (enqueue x (neighbors c x) rest) := by
  rw [ac3Go]
  split
  next d3 hr =>
    rw [hrev] at hr
    cases hr
    rw [if_neg hlen]
  next d3 hr =>
    rw [hrev] at hr
    cases hr

lemma ac3Go_cons_skip (c : Crossword) (d : Domains) (x y : Variable)
    (rest : List Arc) (d2 : Domains) (hrev : revise c d x y = (false, d2)) :
    ac3Go c d ((x, y) :: rest) = ac3Go c d2 rest := by
  rw [ac3Go]
  split
  next d3 hr =>
    rw [hrev] at hr
    cases hr
  next d3 hr =>
    rw [hrev] at hr
    cases hr
    rfl

/-- Master lemma for the `ac3` loop: given the invariant, a `True` result
yields a fully arc-consistent store, a `False` result yields a newly emptied
domain, and domains only ever shrink (never refill). -/
lemma ac3Go_spec (c : Crossword) (hwf : WF c) :
    ∀ d q, QueueWF c q → AC3Inv c d q →
      (((ac3Go c d q).1 = true →
          ∀ x ∈ c.vars, ∀ y ∈ c.vars, arcOKB c (ac3Go c d q).2 x y = true)
      ∧ ((ac3Go c d q).1 = false → ∃ x ∈ c.vars, (ac3Go c d q).2 x = [] ∧ d x ≠ [])
      ∧ (∀ z w, w ∈ (ac3Go c d q).2 z → w ∈ d z)
      ∧ ((ac3Go c d q).1 = true → ∀ x, d x ≠ [] → (ac3Go c d q).2 x ≠ [])) := by
  intro d q
  induction d, q using ac3Go.induct c with
  | case1 d =>
    intro _ hinv
    rw [ac3Go_nil]
    refine ⟨?_, ?_, ?_, ?_⟩
    · intro _ x hx y hy
      cases hov : c.overlaps x y with
      | none => simp [arcOKB, hov]
      | some ov =>
        rcases hinv x hx y hy (by rw [hov]; rfl) with h | h
        · simp at h
        · exact h
    · intro h; simp at h
    · intro z w h; exact h
    · intro _ x h; exact h
  | case2 d x y rest d2 hrev hlen =>
    intro hq _
    rw [ac3Go_cons_empty c d x y rest d2 hrev hlen]
    refine ⟨?_, ?_, ?_, ?_⟩
    · intro h; simp at h
    · intro _
      refine ⟨x, (hq (x, y) (List.mem_cons_self _ _)).1,
        List.length_eq_zero.1 hlen, ?_⟩
      exact revise_true_ne_nil c d x y (by rw [hrev])
    · intro z w h
      apply revise_sub c d x y z w
      rw [hrev]
      exact h
    · intro h; simp at h
  | case3 d x y rest d2 hrev hlen ih =>
    intro hq hinv
    have hxv : x ∈ c.vars := (hq (x, y) (List.mem_cons_self _ _)).1
    have hyv : y ∈ c.vars := (hq (x, y) (List.mem_cons_self _ _)).2
    have hd2 : d2 = (revise c d x y).2 := by rw [hrev]
    rw [ac3Go_cons_requeue c d x y rest d2 hrev hlen]
    have hq2 : QueueWF c (enqueue x (neighbors c x) rest) := by
      intro p hp
      rcases mem_enqueue_elim x (neighbors c x) rest p hp with hp2 | ⟨n, hn, rfl | rfl⟩
      · exact hq p (List.mem_cons_of_mem _ hp2)
      · exact ⟨hxv, neighbors_subset c x n hn⟩
      · exact ⟨neighbors_subset c x n hn, hxv⟩
    have hinv2 : AC3Inv c d2 (enqueue x (neighbors c x) rest) := by
      intro a ha b hb hs
      by_cases hbx : b = x
      · rw [hbx]
        rw [hbx] at hs
        exact Or.inl ((enqueue_mem_pair x (neighbors c x) rest a
          (mem_neighbors_of_overlap c hwf x a hxv ha hs)).2)
      · rcases hinv a ha b hb hs with hmem | hok
        · rcases List.mem_cons.1 hmem with hab | hmem2
          · rw [Prod.mk.injEq] at hab
            have hyx : y ≠ x := fun heq => hbx (hab.2.trans heq)
            rw [hd2, hab.1, hab.2]
            exact Or.inr (revise_arcOK c d x y hyx)
          · exact Or.inl (mem_enqueue_of_mem x _ rest _ hmem2)
        · refine Or.inr ?_
          rw [hd2]
          apply arcOK_mono c d _ a b
          · intro w hw; exact revise_sub c d x y a w hw
          · exact revise_snd_apply_ne c d x y b hbx
          · exact hok
    rcases ih hq2 hinv2 with ⟨ih1, ih2, ih3, ih4⟩
    refine ⟨ih1, ?_, ?_, ?_⟩
    · intro h
      rcases ih2 h with ⟨x2, hx2, hnil, hne⟩
      refine ⟨x2, hx2, hnil, ?_⟩
      intro h0
      apply hne
      by_cases hzx : x2 = x
      · exfalso
        apply revise_true_ne_nil c d x y (by rw [hrev])
        rw [← hzx]
        exact h0
      · rw [hd2, revise_snd_apply_ne c d x y x2 hzx]
        exact h0
    · intro z w h
      apply revise_sub c d x y z w
      rw [← hd2]
      exact ih3 z w h
    · intro h x2 hne
      apply ih4 h
      by_cases hzx : x2 = x
      · rw [hzx]
        intro h0
        rw [h0] at hlen
        simp at hlen
      · rw [hd2, revise_snd_apply_ne c d x y x2 hzx]
        exact hne
  | case4 d x y rest d2 hrev ih =>
    intro hq hinv
    have hd2 : d2 = d := by
      have h2 : d2 = (revise c d x y).2 := by rw [hrev]
      rw [h2]
      exact revise_false_snd c d x y (by rw [hrev])
    rw [ac3Go_cons_skip c d x y rest d2 hrev]
    have hq2 : QueueWF c rest := fun p hp => hq p (List.mem_cons_of_mem _ hp)
    have hinv2 : AC3Inv c d2 rest := by
      intro a ha b hb hs
      rcases hinv a ha b hb hs with hmem | hok
      · rcases List.mem_cons.1 hmem with hab | hmem2
        · rw [Prod.mk.injEq] at hab
          rw [hd2, hab.1, hab.2]
          exact Or.inr (revise_false_arcOK c d x y (by rw [hrev]))
        · exact Or.inl hmem2
      · rw [hd2]; exact Or.inr hok
    rcases ih hq2 hinv2 with ⟨ih1, ih2, ih3, ih4⟩
    rw [hd2]
    rw [hd2] at ih1 ih2 ih3 ih4
    exact ⟨ih1, ih2, ih3, ih4⟩


/-! Section: The initial queue -/

lemma mem_initialQueue (c : Crossword) (x y : Variable) :
    (x, y) ∈ initialQueue c ↔
      x ∈ c.vars ∧ y ∈ c.vars ∧ y ≠ x ∧ (c.overlaps x y).isSome := by
  unfold initialQueue
  rw [List.mem_flatten]
  constructor
  · rintro ⟨l, hl, hmem⟩
    rcases List.mem_map.1 hl with ⟨x2, hx2, rfl⟩
    rcases List.mem_map.1 hmem with ⟨y2, hy2, heq⟩
    rw [Prod.mk.injEq] at heq
    rw [List.mem_filter] at hy2
    have hcond := hy2.2
    rw [Bool.and_eq_true, decide_eq_true_eq] at hcond
    rw [← heq.1, ← heq.2]
    exact ⟨hx2, hy2.1, hcond.1, hcond.2⟩
  · rintro ⟨hx, hy, hne, hs⟩
    refine ⟨_, List.mem_map.2 ⟨x, hx, rfl⟩, List.mem_map.2 ⟨y, ?_, rfl⟩⟩
    rw [List.mem_filter]
    exact ⟨hy, by rw [Bool.and_eq_true, decide_eq_true_eq]; exact ⟨hne, hs⟩⟩

lemma initialQueue_wf (c : Crossword) : QueueWF c (initialQueue c) := by
  intro p hp
  obtain ⟨px, py⟩ := p
  rw [mem_initialQueue] at hp
  exact ⟨hp.1, hp.2.1⟩

lemma initialQueue_inv (c : Crossword) (hwf : WF c) (d : Domains) :
    AC3Inv c d (initialQueue c) := by
  intro x hx y hy hs
  refine Or.inl ?_
  rw [mem_initialQueue]
  exact ⟨hx, hy, overlaps_ne_of_some c hwf x y hx hs, hs⟩

/-! Section: `ac3` is the identity on an arc-consistent store -/

lemma revise_false_of_arcOK (c : Crossword) (d : Domains) (x y : Variable)
    (h : arcOKB c d x y = true) : (revise c d x y).1 = false := by
  cases hov : c.overlaps x y with
  | none => rw [revise_none_eq c d x y hov]
  | some ov =>
    simp only [arcOKB, hov, List.all_eq_true] at h
    simp only [revise, hov]
    rw [List.any_eq_false]
    intro wx hwx
    simp [h wx hwx]

lemma ac3Go_id_of_arcConsistent (c : Crossword) (d : Domains)
    (hcons : ArcConsistent c d) :
    ∀ q, QueueWF c q → ac3Go c d q = (true, d)
  | [], _ => ac3Go_nil c d
  | (x, y) :: rest, hq => by
    have hx := (hq _ (List.mem_cons_self _ _)).1
    have hy := (hq _ (List.mem_cons_self _ _)).2
    have hfalse : (revise c d x y).1 = false :=
      revise_false_of_arcOK c d x y (hcons x hx y hy)
    have hrev : revise c d x y = (false, d) := by
      rw [Prod.ext_iff]
      exact ⟨hfalse, revise_false_snd c d x y hfalse⟩
    rw [ac3Go_cons_skip c d x y rest d hrev]
    exact ac3Go_id_of_arcConsistent c d hcons rest
      (fun p hp => hq p (List.mem_cons_of_mem _ hp))

/-- The arcs seeded by the `backtrack` inference step mention only crossword
variables. -/
lemma branchArcs_wf (c : Crossword) (var : Variable) (hvar : var ∈ c.vars) :
    QueueWF c ((neighbors c var).map (fun x => (x, var))) := by
  intro p hp
  rcases List.mem_map.1 hp with ⟨n, hn, rfl⟩
  exact ⟨neighbors_subset c var n hn, hvar⟩

/-! Section: Unfolding equations for `backtrack` and `tryWords` -/

lemma backtrack_complete (c : Crossword) (d : Domains) (a : Assignment)
    (h : assignmentComplete c a = true) : backtrack c d a = (some a, d) := by
  rw [backtrack, if_pos h]

lemma backtrack_sel_none (c : Crossword) (d : Domains) (a : Assignment)
    (h : assignmentComplete c a = false)
    (hsel : selectUnassignedVariable c d a = none) : backtrack c d a = (none, d) := by
  rw [backtrack, if_neg (by rw [h]; exact Bool.false_ne_true)]
  split
  next => rfl
  next var hsel2 => rw [hsel] at hsel2; cases hsel2

lemma backtrack_sel_some (c : Crossword) (d : Domains) (a : Assignment)
    (var : Variable) (h : assignmentComplete c a = false)
    (hsel : selectUnassignedVariable c d a = some var)
    (hv : var ∈ c.vars ∧ isAssigned a var = false) :
    backtrack c d a = tryWords c d a var hv (orderDomainValues c d a var) := by
  rw [backtrack, if_neg (by rw [h]; exact Bool.false_ne_true)]
  split
  next hsel2 => rw [hsel] at hsel2; cases hsel2
  next var2 hsel2 =>
    rw [hsel] at hsel2
    cases hsel2
    rfl

lemma tryWords_nil (c : Crossword) (d : Domains) (a : Assignment) (var : Variable)
    (hv : var ∈ c.vars ∧ isAssigned a var = false) :
    tryWords c d a var hv [] = (none, d) := by
  rw [tryWords]

lemma tryWords_cons_incons (c : Crossword) (d : Domains) (a : Assignment)
    (var : Variable) (hv : var ∈ c.vars ∧ isAssigned a var = false)
    (w : Word) (ws : List Word) (h : consistent c (a ++ [(var, w)]) = false) :
    tryWords c d a var hv (w :: ws) = tryWords c d a var hv ws := by
  rw [tryWords, if_neg (by rw [h]; exact Bool.false_ne_true)]

lemma tryWords_cons_found (c : Crossword) (d : Domains) (a : Assignment)
    (var : Variable) (hv : var ∈ c.vars ∧ isAssigned a var = false)
    (w : Word) (ws : List Word) (res : Assignment) (d2 : Domains)
    (h : consistent c (a ++ [(var, w)]) = true)
    (hbt : backtrack c (ac3 c d (some ((neighbors c var).map (fun x => (x, var))))).2
      (a ++ [(var, w)]) = (some res, d2)) :
    tryWords c d a var hv (w :: ws) = (some res, d2) := by
  rw [tryWords, if_pos h]
  split
  next res2 d3 hbt2 => rw [hbt] at hbt2; cases hbt2; rfl
  next d3 hbt2 => rw [hbt] at hbt2; cases hbt2

lemma tryWords_cons_failed (c : Crossword) (d : Domains) (a : Assignment)
    (var : Variable) (hv : var ∈ c.vars ∧ isAssigned a var = false)
    (w : Word) (ws : List Word) (d2 : Domains)
    (h : consistent c (a ++ [(var, w)]) = true)
    (hbt : backtrack c (ac3 c d (some ((neighbors c var).map (fun x => (x, var))))).2
      (a ++ [(var, w)]) = (none, d2)) :
    tryWords c d a var hv (w :: ws) = tryWords c d2 a var hv ws := by
  rw [tryWords, if_pos h]
  split
  next res2 d3 hbt2 => rw [hbt] at hbt2; cases hbt2
  next d3 hbt2 => rw [hbt] at hbt2; cases hbt2; rfl

/-! Section: `backtrack` never changes an arc-consistent store -/

lemma backtrack_fix (c : Crossword) :
    ∀ d a, ArcConsistent c d → (backtrack c d a).2 = d := by
  refine backtrack.induct c
    (fun d a => ArcConsistent c d → (backtrack c d a).2 = d)
    (fun d a var hv ws => ArcConsistent c d → (tryWords c d a var hv ws).2 = d)
    ?_ ?_ ?_ ?_ ?_ ?_ ?_
  · intro d a h _
    rw [backtrack_complete c d a h]
  · intro d a h hsel _
    rw [backtrack_sel_none c d a (Bool.not_eq_true _ ▸ h) hsel]
  · intro d a h var hsel ih hc
    rw [backtrack_sel_some c d a var (Bool.not_eq_true _ ▸ h) hsel
      (selectUnassignedVariable_mem c d a var hsel)]
    exact ih hc
  · intro d a var hv _
    rw [tryWords_nil]
  · intro d a var hv w ws hcons res d2 hbt ih1 hc
    have hac : ac3 c d (some ((neighbors c var).map (fun x => (x, var)))) = (true, d) :=
      ac3Go_id_of_arcConsistent c d hc _ (branchArcs_wf c var hv.1)
    have hsnd : (ac3 c d (some ((neighbors c var).map (fun x => (x, var))))).2 = d := by
      rw [hac]
    rw [tryWords_cons_found c d a var hv w ws res d2 hcons hbt]
    have h5 := ih1 (by rw [hsnd]; exact hc)
    rw [hbt, hsnd] at h5
    exact h5
  · intro d a var hv w ws hcons d2 hbt ih1 ih2 hc
    have hac : ac3 c d (some ((neighbors c var).map (fun x => (x, var)))) = (true, d) :=
      ac3Go_id_of_arcConsistent c d hc _ (branchArcs_wf c var hv.1)
    have hsnd : (ac3 c d (some ((neighbors c var).map (fun x => (x, var))))).2 = d := by
      rw [hac]
    rw [tryWords_cons_failed c d a var hv w ws d2 hcons hbt]
    have hfix := ih1 (by rw [hsnd]; exact hc)
    rw [hbt, hsnd] at hfix
    have hd2 : d2 = d := hfix
    have hcons2 : ArcConsistent c d2 := hd2.symm ▸ hc
    rw [ih2 hcons2, hd2]
  · intro d a var hv w ws hcons ih hc
    rw [tryWords_cons_incons c d a var hv w ws (Bool.not_eq_true _ ▸ hcons)]
    exact ih hc


/-! Section: Lookup and `consistent` decomposition -/

lemma lookupA_eq_some_of_mem :
    ∀ (a : Assignment), (a.map Prod.fst).Nodup → ∀ (v : Variable) (w : Word),
      (v, w) ∈ a → lookupA a v = some w
  | [], _, v, w, h => by simp at h
  | (u, wu) :: rest, hn, v, w, h => by
    rw [List.map_cons, List.nodup_cons] at hn
    rcases List.mem_cons.1 h with heq | hmem
    · rw [Prod.mk.injEq] at heq
      rw [lookupA, if_pos heq.1.symm, heq.2]
    · have hne : ¬u = v := by
        intro heq2
        apply hn.1
        rw [heq2]
        exact List.mem_map.2 ⟨(v, w), hmem, rfl⟩
      rw [lookupA, if_neg hne]
      exact lookupA_eq_some_of_mem rest hn.2 v w hmem

lemma lookupA_some_mem :
    ∀ (a : Assignment) (v : Variable) (w : Word), lookupA a v = some w → (v, w) ∈ a
  | [], v, w, h => by simp [lookupA] at h
  | (u, wu) :: rest, v, w, h => by
    rw [lookupA] at h
    split at h
    next heq =>
      cases h
      rw [heq]
      exact List.mem_cons_self _ _
    next => exact List.mem_cons_of_mem _ (lookupA_some_mem rest v w h)

lemma lookupA_none_iff :
    ∀ (a : Assignment) (v : Variable), lookupA a v = none ↔ v ∉ a.map Prod.fst
  | [], v => by simp [lookupA]
  | (u, wu) :: rest, v => by
    rw [lookupA, List.map_cons, List.mem_cons]
    by_cases h : u = v
    · rw [if_pos h]
      simp [h]
    · rw [if_neg h]
      rw [lookupA_none_iff rest v]
      constructor
      · intro h2 h3
        rcases h3 with h3 | h3
        · exact h (h3.symm)
        · exact h2 h3
      · intro h2
        exact fun h3 => h2 (Or.inr h3)

lemma unassigned_not_mem_keys (a : Assignment) (v : Variable)
    (hu : isAssigned a v = false) : v ∉ a.map Prod.fst := by
  rw [← lookupA_none_iff]
  cases h : lookupA a v with
  | none => rfl
  | some w => rw [isAssigned, h] at hu; simp at hu

lemma keys_append_nodup (a : Assignment) (var : Variable) (w : Word)
    (hn : (a.map Prod.fst).Nodup) (hu : isAssigned a var = false) :
    (((a ++ [(var, w)]).map Prod.fst)).Nodup := by
  rw [List.map_append]
  rw [List.nodup_append]
  refine ⟨hn, by simp, ?_⟩
  intro v hv1 hv2
  simp only [List.map_cons, List.map_nil, List.mem_cons, List.not_mem_nil,
    or_false] at hv2
  rw [hv2] at hv1
  exact unassigned_not_mem_keys a var hu hv1

lemma valuesDistinct_iff (a : Assignment) :
    valuesDistinct a = true ↔ (a.map Prod.snd).Nodup := by
  rw [valuesDistinct, beq_iff_eq]
  constructor
  · intro h
    rw [← List.dedup_eq_self]
    exact (List.dedup_sublist _).eq_of_length h
  · intro h
    rw [List.dedup_eq_self.2 h]

/-- The executable `consistent` agrees with the three-part semantic
description: matching lengths, agreement of every overlapping assigned pair,
pairwise distinct values. -/
lemma consistent_iff (c : Crossword) (a : Assignment) (hwf : WF c)
    (hk : ∀ p ∈ a, p.1 ∈ c.vars) (hn : (a.map Prod.fst).Nodup) :
    consistent c a = true ↔
      ((∀ p ∈ a, p.2.length = p.1.length)
      ∧ (∀ p ∈ a, ∀ q ∈ a, ∀ ov, c.overlaps p.1 q.1 = some ov →
          p.2[ov.1]? = q.2[ov.2]?)
      ∧ (a.map Prod.snd).Nodup) := by
  rw [consistent, Bool.and_eq_true, List.all_eq_true, valuesDistinct_iff]
  constructor
  · rintro ⟨hall, hdist⟩
    refine ⟨?_, ?_, hdist⟩
    · intro p hp
      have h2 := hall p hp
      rw [Bool.and_eq_true, beq_iff_eq] at h2
      exact h2.1
    · intro p hp q hq ov hov
      have h2 := hall p hp
      rw [Bool.and_eq_true] at h2
      have h2 := h2.2
      rw [List.all_eq_true] at h2
      have hqn : q.1 ∈ neighbors c p.1 := by
        rw [neighbors, List.mem_filter]
        refine ⟨hk q hq, ?_⟩
        rw [Bool.and_eq_true, decide_eq_true_eq]
        constructor
        · intro heq
          rw [heq] at hov
          rw [hwf.2.1 p.1 (hk p hp)] at hov
          cases hov
        · rw [hov]; rfl
      have h3 := h2 q.1 hqn
      rw [lookupA_eq_some_of_mem a hn q.1 q.2 hq] at h3
      rw [hov] at h3
      simp only [agrees, decide_eq_true_eq] at h3
      exact h3
  · rintro ⟨hlen, hagree, hdist⟩
    refine ⟨?_, hdist⟩
    intro p hp
    rw [Bool.and_eq_true, beq_iff_eq]
    refine ⟨hlen p hp, ?_⟩
    rw [List.all_eq_true]
    intro n hn2
    cases hl : lookupA a n with
    | none => rfl
    | some wn =>
      cases hov2 : c.overlaps p.1 n with
      | none => rfl
      | some ov =>
        show agrees ov p.2 wn = true
        simp only [agrees, decide_eq_true_eq]
        exact hagree p hp (n, wn) (lookupA_some_mem a n wn hl) ov hov2

/-! Section: Soundness of `backtrack`: returned assignments are complete and
consistent -/

lemma backtrack_sound (c : Crossword) :
    ∀ d a, consistent c a = true → (∀ p ∈ a, p.1 ∈ c.vars) →
      (a.map Prod.fst).Nodup →
      ∀ r, (backtrack c d a).1 = some r →
        assignmentComplete c r = true ∧ consistent c r = true ∧
        (∀ p ∈ r, p.1 ∈ c.vars) ∧ (r.map Prod.fst).Nodup := by
  refine backtrack.induct c
    (fun d a => consistent c a = true → (∀ p ∈ a, p.1 ∈ c.vars) →
      (a.map Prod.fst).Nodup →
      ∀ r, (backtrack c d a).1 = some r →
        assignmentComplete c r = true ∧ consistent c r = true ∧
        (∀ p ∈ r, p.1 ∈ c.vars) ∧ (r.map Prod.fst).Nodup)
    (fun d a var hv ws => consistent c a = true → (∀ p ∈ a, p.1 ∈ c.vars) →
      (a.map Prod.fst).Nodup →
      ∀ r, (tryWords c d a var hv ws).1 = some r →
        assignmentComplete c r = true ∧ consistent c r = true ∧
        (∀ p ∈ r, p.1 ∈ c.vars) ∧ (r.map Prod.fst).Nodup)
    ?_ ?_ ?_ ?_ ?_ ?_ ?_
  · intro d a hcomp hcons hk hn r hr
    rw [backtrack_complete c d a hcomp] at hr
    cases hr
    exact ⟨hcomp, hcons, hk, hn⟩
  · intro d a _ hsel hcons hk hn r hr
    rw [backtrack_sel_none c d a (Bool.not_eq_true _ ▸ ‹¬assignmentComplete c a = true›) hsel] at hr
    cases hr
  · intro d a h var hsel ih hcons hk hn r hr
    rw [backtrack_sel_some c d a var (Bool.not_eq_true _ ▸ h) hsel
      (selectUnassignedVariable_mem c d a var hsel)] at hr
    exact ih hcons hk hn r hr
  · intro d a var hv hcons hk hn r hr
    rw [tryWords_nil] at hr
    cases hr
  · intro d a var hv w ws hc2 res d2 hbt ih1 hcons hk hn r hr
    rw [tryWords_cons_found c d a var hv w ws res d2 hc2 hbt] at hr
    have hk2 : ∀ p ∈ a ++ [(var, w)], p.1 ∈ c.vars := by
      intro p hp
      rcases List.mem_append.1 hp with hp | hp
      · exact hk p hp
      · simp only [List.mem_singleton] at hp
        rw [hp]
        exact hv.1
    have hn2 := keys_append_nodup a var w hn hv.2
    have h5 := ih1 hc2 hk2 hn2 r (by rw [hbt]; exact hr)
    exact h5
  · intro d a var hv w ws hc2 d2 hbt ih1 ih2 hcons hk hn r hr
    rw [tryWords_cons_failed c d a var hv w ws d2 hc2 hbt] at hr
    exact ih2 hcons hk hn r hr
  · intro d a var hv w ws hc2 ih hcons hk hn r hr
    rw [tryWords_cons_incons c d a var hv w ws (Bool.not_eq_true _ ▸ hc2)] at hr
    exact ih hcons hk hn r hr


/-! Section: Pointwise evaluation of `enforce_node_consistency` -/

lemma encFold_eval :
    ∀ (l : List Variable) (d : Domains) (v : Variable), l.Nodup →
      (l.foldl (fun ds u =>
          Function.update ds u ((ds u).filter (fun w => w.length == u.length))) d) v
        = if v ∈ l then (d v).filter (fun w => w.length == v.length) else d v
  | [], d, v, _ => by simp
  | u :: us, d, v, hnd => by
    rw [List.foldl_cons]
    rw [List.nodup_cons] at hnd
    rw [encFold_eval us _ v hnd.2]
    by_cases hv : v ∈ us
    · rw [if_pos hv, if_pos (List.mem_cons_of_mem _ hv)]
      have hvu : v ≠ u := fun h => hnd.1 (h ▸ hv)
      rw [Function.update_noteq hvu]
    · rw [if_neg hv]
      by_cases hvu : v = u
      · rw [if_pos (by rw [hvu]; exact List.mem_cons_self _ _)]
        rw [hvu, Function.update_same]
      · rw [if_neg (by rw [List.mem_cons]; tauto), Function.update_noteq hvu]

lemma enforceNodeConsistency_eval (c : Crossword) (d : Domains)
    (hnd : c.vars.Nodup) (v : Variable) :
    enforceNodeConsistency c d v =
      if v ∈ c.vars then (d v).filter (fun w => w.length == v.length) else d v :=
  encFold_eval c.vars d v hnd

/-! Section: Properties of the variable-selection heuristic -/

lemma nat_min?_spec (l : List Nat) (m : Nat) (h : l.min? = some m) :
    m ∈ l ∧ ∀ b ∈ l, m ≤ b :=
  (List.min?_eq_some_iff (fun a => Nat.le_refl a)
    (fun a b => min_choice a b) (fun a b c => le_min_iff)).1 h

lemma selectLowest_head (c : Crossword) (lowest : List Variable)
    (hne : lowest ≠ []) :
    ∃ v, selectLowest c lowest = some v ∧ v ∈ lowest ∧
      ∀ u ∈ lowest, (neighbors c u).length ≤ (neighbors c v).length := by
  unfold selectLowest
  split
  next hlen =>
    haveI hto : IsTotal Variable
        (fun u v => (neighbors c v).length ≤ (neighbors c u).length) :=
      ⟨fun a b => (Nat.le_total (neighbors c b).length (neighbors c a).length).elim
        Or.inl Or.inr⟩
    haveI htr : IsTrans Variable
        (fun u v => (neighbors c v).length ≤ (neighbors c u).length) :=
      ⟨fun a b c2 h1 h2 => Nat.le_trans h2 h1⟩
    have hperm := List.perm_insertionSort
      (fun u v => (neighbors c v).length ≤ (neighbors c u).length) lowest
    have hsorted := List.sorted_insertionSort
      (fun u v => (neighbors c v).length ≤ (neighbors c u).length) lowest
    cases hs : lowest.insertionSort
        (fun u v => (neighbors c v).length ≤ (neighbors c u).length) with
    | nil =>
      exfalso
      apply hne
      rw [hs] at hperm
      exact (List.Perm.nil_eq hperm).symm
    | cons v t =>
      refine ⟨v, rfl, ?_, ?_⟩
      · rw [hs] at hperm
        exact hperm.mem_iff.1 (List.mem_cons_self _ _)
      · intro u hu
        rw [hs] at hperm hsorted
        rcases List.mem_cons.1 (hperm.mem_iff.2 hu) with rfl | hut
        · exact Nat.le_refl _
        · exact (List.pairwise_cons.1 hsorted).1 u hut
  next hlen =>
    cases lowest with
    | nil => exact absurd rfl hne
    | cons v t =>
      cases t with
      | nil =>
        refine ⟨v, rfl, List.mem_cons_self _ _, ?_⟩
        intro u hu
        rcases List.mem_cons.1 hu with rfl | hu2
        · exact Nat.le_refl _
        · simp at hu2
      | cons v2 t2 => exact absurd (by simp) hlen

/-- Full behavioral description of `select_unassigned_variable` when some
variable is unassigned: it returns an unassigned crossword variable of
minimal domain size whose neighbor count is maximal among the tied ones. -/
lemma selectUnassignedVariable_spec (c : Crossword) (d : Domains) (a : Assignment)
    (hne : ∃ v ∈ c.vars, isAssigned a v = false) :
    ∃ v, selectUnassignedVariable c d a = some v ∧ v ∈ c.vars ∧
      isAssigned a v = false ∧
      (∀ u ∈ c.vars, isAssigned a u = false → (d v).length ≤ (d u).length) ∧
      (∀ u ∈ c.vars, isAssigned a u = false → (d u).length = (d v).length →
        (neighbors c u).length ≤ (neighbors c v).length) := by
  obtain ⟨v0, hv0, hu0⟩ := hne
  have hv0f : v0 ∈ c.vars.filter (fun v => !(isAssigned a v)) :=
    List.mem_filter.2 ⟨hv0, by rw [hu0]; rfl⟩
  obtain ⟨m, hm⟩ : ∃ m,
      ((c.vars.filter (fun v => !(isAssigned a v))).map (fun v => (d v).length)).min?
        = some m := by
    cases h : ((c.vars.filter (fun v => !(isAssigned a v))).map
        (fun v => (d v).length)).min? with
    | none =>
      rw [List.min?_eq_none_iff] at h
      rw [List.map_eq_nil] at h
      rw [h] at hv0f
      cases hv0f
    | some m => exact ⟨m, rfl⟩
  have hmspec := nat_min?_spec _ m hm
  obtain ⟨vm, hvmU, hvmlen⟩ := List.mem_map.1 hmspec.1
  have hlowne : vm ∈ (c.vars.filter (fun v => !(isAssigned a v))).filter
      (fun v => (d v).length == m) :=
    List.mem_filter.2 ⟨hvmU, by rw [hvmlen]; exact beq_self_eq_true m⟩
  obtain ⟨v, hsel, hvlow, hmax⟩ :=
    selectLowest_head c _ (List.ne_nil_of_mem hlowne)
  have hvU := List.mem_of_mem_filter hvlow
  have hvlen : (d v).length = m := by
    have := (List.mem_filter.1 hvlow).2
    rwa [beq_iff_eq] at this
  have hvars := List.mem_filter.1 hvU
  refine ⟨v, ?_, hvars.1, by simpa using hvars.2, ?_, ?_⟩
  · unfold selectUnassignedVariable
    rw [hm]
    exact hsel
  · intro u hu huf
    have huU : u ∈ c.vars.filter (fun v => !(isAssigned a v)) :=
      List.mem_filter.2 ⟨hu, by rw [huf]; rfl⟩
    have : m ≤ (d u).length :=
      hmspec.2 _ (List.mem_map.2 ⟨u, huU, rfl⟩)
    rw [hvlen]
    exact this
  · intro u hu huf hulen
    have huU : u ∈ c.vars.filter (fun v => !(isAssigned a v)) :=
      List.mem_filter.2 ⟨hu, by rw [huf]; rfl⟩
    have hulow : u ∈ (c.vars.filter (fun v => !(isAssigned a v))).filter
        (fun v => (d v).length == m) :=
      List.mem_filter.2 ⟨huU, by rw [hulen, hvlen]; exact beq_self_eq_true m⟩
    exact hmax u hulow

/-- `select_unassigned_variable` yields `none` (Python: raises) exactly on
complete assignments. -/
lemma selectUnassignedVariable_none_iff (c : Crossword) (d : Domains)
    (a : Assignment) :
    selectUnassignedVariable c d a = none ↔ assignmentComplete c a = true := by
  constructor
  · intro h
    by_contra hcomp
    have hex : ∃ v ∈ c.vars, isAssigned a v = false := by
      rw [assignmentComplete, List.all_eq_true] at hcomp
      push_neg at hcomp
      obtain ⟨v, hv, hna⟩ := hcomp
      refine ⟨v, hv, ?_⟩
      cases hb : isAssigned a v
      · rfl
      · exact absurd hb hna
    obtain ⟨v, hsel, _⟩ := selectUnassignedVariable_spec c d a hex
    rw [h] at hsel
    cases hsel
  · intro h
    unfold selectUnassignedVariable
    have hU : c.vars.filter (fun v => !(isAssigned a v)) = [] := by
      rw [List.filter_eq_nil]
      intro v hv
      rw [assignmentComplete, List.all_eq_true] at h
      simp [h v hv]
    rw [hU]
    rfl


/-! Section: Claim theorems -/

/-- C1 (amended): the source `solve` ignores the Boolean result of the full
`ac3` run and unconditionally returns the result of invoking
`backtrack({})`; when that `ac3` run reports failure, `solve` still returns
the no-solution signal `none`, because the emptied domain means the selected
variable has no candidate words.  (The claim's "without ever invoking
backtrack" is false of the code: the second conjunct exhibits `solve`'s
result as `backtrack`'s result.) -/
theorem solve_none_of_ac3_failure (c : Crossword) (hwf : WF c)
    (hfail : (ac3 c (enforceNodeConsistency c (initDomains c)) none).1 = false) :
    (solve c).1 = none ∧
    solve c =
      backtrack c (ac3 c (enforceNodeConsistency c (initDomains c)) none).2 [] := by
  refine ⟨?_, rfl⟩
  obtain ⟨-, h2, -, -⟩ := ac3Go_spec c hwf (enforceNodeConsistency c (initDomains c))
    (initialQueue c) (initialQueue_wf c) (initialQueue_inv c hwf _)
  obtain ⟨x0, hx0, hx0nil, -⟩ := h2 hfail
  have hex : ∃ v ∈ c.vars, isAssigned ([] : Assignment) v = false := ⟨x0, hx0, rfl⟩
  obtain ⟨var, hsel, hvarv, hvaru, hmin, -⟩ :=
    selectUnassignedVariable_spec c
      (ac3 c (enforceNodeConsistency c (initDomains c)) none).2 [] hex
  have hvarnil : (ac3 c (enforceNodeConsistency c (initDomains c)) none).2 var = [] := by
    have hle := hmin x0 hx0 rfl
    have hx0nil2 : (ac3 c (enforceNodeConsistency c (initDomains c)) none).2 x0 = [] :=
      hx0nil
    rw [hx0nil2] at hle
    rw [← List.length_eq_zero]
    simp only [List.length_nil] at hle
    omega
  have hcomp : assignmentComplete c ([] : Assignment) = false := by
    cases hc : assignmentComplete c ([] : Assignment) with
    | false => rfl
    | true =>
      rw [assignmentComplete, List.all_eq_true] at hc
      have := hc x0 hx0
      rw [isAssigned] at this
      simp [lookupA] at this
  rw [solve]
  rw [backtrack_sel_some c _ [] var hcomp hsel ⟨hvarv, hvaru⟩]
  have hord : orderDomainValues c
      (ac3 c (enforceNodeConsistency c (initDomains c)) none).2 [] var = [] := by
    rw [orderDomainValues, hvarnil]
    rfl
  rw [hord, tryWords_nil]

/-- C2: during the search run from an arc-consistent Domain Store (the state
`solve` reaches when its full `ac3` run succeeds), the store is never changed:
the seeded `ac3` inference of every branch returns the snapshot store
unchanged, and every (in particular every failing) recursive `backtrack` call
hands back exactly the store it was given — so after the restore step the
store equals the store at the time the snapshot was taken and no branch-local
shrinkage is observable in sibling branches. -/
theorem backtrack_failed_branch_restores_store (c : Crossword) (d : Domains)
    (a : Assignment) (hcons : ArcConsistent c d) :
    (backtrack c d a).2 = d ∧
    ∀ var ∈ c.vars,
      (ac3 c d (some ((neighbors c var).map (fun x => (x, var))))).2 = d := by
  refine ⟨backtrack_fix c d a hcons, ?_⟩
  intro var hvar
  have h2 := ac3Go_id_of_arcConsistent c d hcons _ (branchArcs_wf c var hvar)
  show (ac3Go c d _).2 = d
  rw [h2]

/-- C3: every non-`none` assignment returned by `solve` is complete and
valid: each crossword variable is mapped to a word of its length, every
overlapping pair agrees at the overlap indices, and no word is used twice. -/
theorem solve_some_sound (c : Crossword) (hwf : WF c) (a : Assignment)
    (hsol : (solve c).1 = some a) :
    (∀ v ∈ c.vars, ∃ w, lookupA a v = some w ∧ w.length = v.length)
  ∧ (∀ x y wx wy ov, c.overlaps x y = some ov →
      lookupA a x = some wx → lookupA a y = some wy → wx[ov.1]? = wy[ov.2]?)
  ∧ (∀ x y wx wy, lookupA a x = some wx → lookupA a y = some wy →
      x ≠ y → wx ≠ wy) := by
  have hsound := backtrack_sound c
    (ac3 c (enforceNodeConsistency c (initDomains c)) none).2 []
    rfl (by simp) (by simp) a hsol
  obtain ⟨hcomp, hcons, hk, hn⟩ := hsound
  rw [consistent_iff c a hwf hk hn] at hcons
  obtain ⟨hlen, hagree, hdist⟩ := hcons
  refine ⟨?_, ?_, ?_⟩
  · intro v hv
    have hva := (List.all_eq_true.1 hcomp) v hv
    rw [isAssigned] at hva
    cases hl : lookupA a v with
    | none => rw [hl] at hva; cases hva
    | some w =>
      exact ⟨w, rfl, hlen (v, w) (lookupA_some_mem a v w hl)⟩
  · intro x y wx wy ov hov hx hy
    exact hagree (x, wx) (lookupA_some_mem a x wx hx)
      (y, wy) (lookupA_some_mem a y wy hy) ov hov
  · intro x y wx wy hx hy hxy heq
    have hmx := lookupA_some_mem a x wx hx
    have hmy := lookupA_some_mem a y wy hy
    have hpair_ne : (x, wx) ≠ (y, wy) := by
      intro h2
      rw [Prod.mk.injEq] at h2
      exact hxy h2.1
    have hpw2 : a.Pairwise (fun p q => p.2 ≠ q.2) := by
      have h3 := hdist
      rw [List.Nodup, List.pairwise_map] at h3
      exact h3
    have hsymm : Symmetric (fun (p q : Variable × Word) => p.2 ≠ q.2) :=
      fun p q h2 h3 => h2 h3.symm
    have hne2 := List.Pairwise.forall hsymm hpw2 hmx hmy hpair_ne
    exact hne2 heq

/-- C4: for the full `ac3` run (no initial arcs): on success every word left
in any domain has a supporting word in every overlapping domain; on failure
some crossword variable's domain was emptied by a revision (it was nonempty
before the run and is empty in the returned store, and `ac3` stops there);
success never empties a nonempty domain. -/
theorem ac3_full_run_spec (c : Crossword) (d : Domains) (hwf : WF c) :
    ((ac3 c d none).1 = true →
       ∀ x ∈ c.vars, ∀ y ∈ c.vars, ∀ ov, c.overlaps x y = some ov →
         ∀ wx ∈ (ac3 c d none).2 x, ∃ wy ∈ (ac3 c d none).2 y,
           wx[ov.1]? = wy[ov.2]?)
  ∧ ((ac3 c d none).1 = false →
      ∃ x ∈ c.vars, (ac3 c d none).2 x = [] ∧ d x ≠ [])
  ∧ ((ac3 c d none).1 = true →
      ∀ x ∈ c.vars, d x ≠ [] → (ac3 c d none).2 x ≠ []) := by
  obtain ⟨h1, h2, h3, h4⟩ := ac3Go_spec c hwf d (initialQueue c)
    (initialQueue_wf c) (initialQueue_inv c hwf d)
  refine ⟨?_, ?_, ?_⟩
  · intro ht x hx y hy ov hov wx hwx
    have h5 := h1 ht x hx y hy
    rw [arcOKB_iff] at h5
    exact h5 ov hov wx hwx
  · exact h2
  · intro ht x _ hne
    exact h4 ht x hne

/-- C5: `revise(x, y)` is a `False` no-op when no overlap is defined;
otherwise it keeps in `domain(x)` exactly the words with a supporting word in
`domain(y)`, touches no other domain (in particular `domain(y)`), and reports
`True` precisely when `domain(x)` changed. -/
theorem revise_spec (c : Crossword) (d : Domains) (x y : Variable) (hwf : WF c)
    (hx : x ∈ c.vars) :
    (c.overlaps x y = none → revise c d x y = (false, d))
  ∧ (∀ ov, c.overlaps x y = some ov →
      ((∀ w, w ∈ (revise c d x y).2 x ↔
          (w ∈ d x ∧ ∃ wy ∈ d y, w[ov.1]? = wy[ov.2]?))
      ∧ (revise c d x y).2 y = d y
      ∧ (∀ z, z ≠ x → (revise c d x y).2 z = d z)
      ∧ ((revise c d x y).1 = true ↔ (revise c d x y).2 x ≠ d x))) := by
  refine ⟨revise_none_eq c d x y, ?_⟩
  intro ov hov
  have hyx : y ≠ x := by
    intro heq
    rw [heq] at hov
    rw [hwf.2.1 x hx] at hov
    cases hov
  refine ⟨?_, revise_snd_apply_ne c d x y y hyx,
    fun z hz => revise_snd_apply_ne c d x y z hz, ?_, ?_⟩
  · intro w
    rw [revise_snd_apply_self c d x y ov hov, List.mem_filter]
    simp only [hasSupport, List.any_eq_true, agrees, decide_eq_true_eq]
  · intro ht heq
    have hlt := revise_true_len_lt c d x y ht
    rw [heq] at hlt
    exact lt_irrefl _ hlt
  · intro hne
    cases hb : (revise c d x y).1 with
    | true => rfl
    | false =>
      exfalso
      apply hne
      have h2 := revise_false_snd c d x y hb
      rw [h2]

/-- C6: on any assignment leaving at least one crossword variable unassigned,
`select_unassigned_variable` returns an unassigned crossword variable whose
domain size is minimal among unassigned variables, and of maximal neighbor
count among those tied at that minimum. -/
theorem select_unassigned_variable_spec (c : Crossword) (d : Domains)
    (a : Assignment) (hne : ∃ v ∈ c.vars, isAssigned a v = false) :
    ∃ v, selectUnassignedVariable c d a = some v ∧ v ∈ c.vars ∧
      isAssigned a v = false ∧
      (∀ u ∈ c.vars, isAssigned a u = false → (d v).length ≤ (d u).length) ∧
      (∀ u ∈ c.vars, isAssigned a u = false → (d u).length = (d v).length →
        (neighbors c u).length ≤ (neighbors c v).length) :=
  selectUnassignedVariable_spec c d a hne

/-- C7: `order_domain_values` returns exactly the elements of `domain(var)` —
a permutation, hence no additions, drops or duplicates — in ascending order
of eliminated-count; being a pure function of the store, it modifies no
domain. -/
theorem order_domain_values_spec (c : Crossword) (d : Domains) (a : Assignment)
    (var : Variable) :
    (orderDomainValues c d a var).Perm (d var)
  ∧ (orderDomainValues c d a var).Pairwise
      (fun w1 w2 => ruledOutCount c d a var w1 ≤ ruledOutCount c d a var w2) := by
  constructor
  · exact List.perm_insertionSort _ _
  · haveI hto : IsTotal Word
        (fun w1 w2 => ruledOutCount c d a var w1 ≤ ruledOutCount c d a var w2) :=
      ⟨fun w1 w2 => Nat.le_total _ _⟩
    haveI htr : IsTrans Word
        (fun w1 w2 => ruledOutCount c d a var w1 ≤ ruledOutCount c d a var w2) :=
      ⟨fun w1 w2 w3 h1 h2 => Nat.le_trans h1 h2⟩
    exact List.sorted_insertionSort _ _

/-- C8: for a duplicate-free partial assignment over crossword variables,
`consistent` holds exactly when all word lengths match, all overlapping
assigned pairs agree at the overlap indices, and all assigned words are
pairwise distinct. -/
theorem consistent_spec (c : Crossword) (a : Assignment) (hwf : WF c)
    (hk : ∀ p ∈ a, p.1 ∈ c.vars) (hn : (a.map Prod.fst).Nodup) :
    consistent c a = true ↔
      ((∀ p ∈ a, p.2.length = p.1.length)
      ∧ (∀ p ∈ a, ∀ q ∈ a, ∀ ov, c.overlaps p.1 q.1 = some ov →
          p.2[ov.1]? = q.2[ov.2]?)
      ∧ (a.map Prod.snd).Nodup) :=
  consistent_iff c a hwf hk hn

/-- C9: `enforce_node_consistency` removes from each variable's domain exactly
the words whose length differs from the variable's length, and it is
idempotent. -/
theorem enforce_node_consistency_spec (c : Crossword) (d : Domains)
    (hnd : c.vars.Nodup) :
    (∀ v ∈ c.vars, ∀ w, w ∈ enforceNodeConsistency c d v ↔
        (w ∈ d v ∧ w.length = v.length))
  ∧ enforceNodeConsistency c (enforceNodeConsistency c d) =
      enforceNodeConsistency c d := by
  constructor
  · intro v hv w
    rw [enforceNodeConsistency_eval c d hnd v, if_pos hv, List.mem_filter,
      beq_iff_eq]
  · funext v
    rw [enforceNodeConsistency_eval c (enforceNodeConsistency c d) hnd v,
      enforceNodeConsistency_eval c d hnd v]
    by_cases hv : v ∈ c.vars
    · rw [if_pos hv, if_pos hv, List.filter_filter]
      exact List.filter_congr (fun w _ => by rw [Bool.and_self])
    · rw [if_neg hv, if_neg hv]

/-- C10: `select_unassigned_variable` returns its failure value (`none`,
modelling the `ValueError` of `min()` over an empty collection) exactly when
the assignment already covers every crossword variable; whenever
`assignment_complete` is false — the guard `backtrack` checks before calling
it — it returns a variable, so the error branch is unreachable under that
guard. -/
theorem select_unassigned_variable_total (c : Crossword) (d : Domains)
    (a : Assignment) :
    (selectUnassignedVariable c d a = none ↔ assignmentComplete c a = true)
  ∧ (assignmentComplete c a = false →
      ∃ v, selectUnassignedVariable c d a = some v) := by
  refine ⟨selectUnassignedVariable_none_iff c d a, ?_⟩
  intro h
  cases hs : selectUnassignedVariable c d a with
  | none =>
    rw [(selectUnassignedVariable_none_iff c d a).1 hs] at h
    cases h
  | some v => exact ⟨v, rfl⟩


/-! Section: Concrete instances for witnesses -/

/-- A 3-letter across slot. -/
def vA : Variable := ⟨0, 0, Direction.across, 3⟩

/-- A 4-letter down slot crossing `vA`. -/
def vD : Variable := ⟨0, 1, Direction.down, 4⟩

def catW : Word := ['c', 'a', 't']

def beadW : Word := ['b', 'e', 'a', 'd']

/-- A solvable two-slot crossword: `cat`'s index 1 must equal `bead`'s
index 2 (both are `a`). -/
def exCW : Crossword where
  vars := [vA, vD]
  words := [catW, beadW]
  overlaps := fun u v =>
    if u = vA ∧ v = vD then some (1, 2)
    else if u = vD ∧ v = vA then some (2, 1)
    else none

/-- An unsolvable two-slot crossword: the vocabulary has no 4-letter word, so
node consistency empties `vD`'s domain and the `ac3` run fails. -/
def exCWFail : Crossword where
  vars := [vA, vD]
  words := [['a', 'b', 'c']]
  overlaps := fun u v =>
    if u = vA ∧ v = vD then some (0, 0)
    else if u = vD ∧ v = vA then some (0, 0)
    else none

/-- An arc-consistent store for `exCW`. -/
def exDom : Domains := fun v =>
  if v = vA then [catW] else if v = vD then [beadW] else []

def exSol : Assignment := [(vA, catW), (vD, beadW)]

def exA1 : Assignment := [(vA, catW)]

/-- Store after node consistency on `exCW`. -/
def exD0 : Domains := enforceNodeConsistency exCW (initDomains exCW)

def exD1 : Domains := (revise exCW exD0 vA vD).2

def exD2 : Domains := (revise exCW exD1 vD vA).2

def exD3 : Domains := (revise exCW exD2 vD vA).2

def exD4 : Domains := (revise exCW exD3 vA vD).2

lemma ac3_exCWFail_false :
    (ac3 exCWFail (enforceNodeConsistency exCWFail (initDomains exCWFail)) none).1
      = false := by
  show (ac3Go exCWFail (enforceNodeConsistency exCWFail (initDomains exCWFail))
    (initialQueue exCWFail)).1 = false
  have hq : initialQueue exCWFail = [(vA, vD), (vD, vA)] := by decide
  rw [hq]
  have h1 : revise exCWFail (enforceNodeConsistency exCWFail (initDomains exCWFail)) vA vD
      = (true,
        (revise exCWFail (enforceNodeConsistency exCWFail (initDomains exCWFail)) vA vD).2) := by
    rw [Prod.ext_iff]
    exact ⟨by decide, rfl⟩
  rw [ac3Go_cons_empty exCWFail _ vA vD [(vD, vA)] _ h1 (by decide)]

lemma ac3_exCW_eval : ac3 exCW exD0 none = (true, exD2) := by
  show ac3Go exCW exD0 (initialQueue exCW) = (true, exD2)
  have hq : initialQueue exCW = [(vA, vD), (vD, vA)] := by decide
  rw [hq]
  have h1 : revise exCW exD0 vA vD = (false, exD1) := by
    rw [Prod.ext_iff]
    exact ⟨by decide, rfl⟩
  rw [ac3Go_cons_skip exCW exD0 vA vD [(vD, vA)] exD1 h1]
  have h2 : revise exCW exD1 vD vA = (false, exD2) := by
    rw [Prod.ext_iff]
    exact ⟨by decide, rfl⟩
  rw [ac3Go_cons_skip exCW exD1 vD vA [] exD2 h2]
  exact ac3Go_nil exCW exD2

lemma ac3_branchA_eval :
    ac3 exCW exD2 (some ((neighbors exCW vA).map (fun x => (x, vA)))) = (true, exD3) := by
  have harcs : (neighbors exCW vA).map (fun x => (x, vA)) = [(vD, vA)] := by decide
  rw [harcs]
  show ac3Go exCW exD2 [(vD, vA)] = (true, exD3)
  have h1 : revise exCW exD2 vD vA = (false, exD3) := by
    rw [Prod.ext_iff]
    exact ⟨by decide, rfl⟩
  rw [ac3Go_cons_skip exCW exD2 vD vA [] exD3 h1]
  exact ac3Go_nil exCW exD3

lemma ac3_branchD_eval :
    ac3 exCW exD3 (some ((neighbors exCW vD).map (fun x => (x, vD)))) = (true, exD4) := by
  have harcs : (neighbors exCW vD).map (fun x => (x, vD)) = [(vA, vD)] := by decide
  rw [harcs]
  show ac3Go exCW exD3 [(vA, vD)] = (true, exD4)
  have h1 : revise exCW exD3 vA vD = (false, exD4) := by
    rw [Prod.ext_iff]
    exact ⟨by decide, rfl⟩
  rw [ac3Go_cons_skip exCW exD3 vA vD [] exD4 h1]
  exact ac3Go_nil exCW exD4

lemma backtrack_exCW_inner :
    backtrack exCW exD3 [(vA, catW)] = (some exSol, exD4) := by
  have hcomp : assignmentComplete exCW [(vA, catW)] = false := by decide
  have hsel : selectUnassignedVariable exCW exD3 [(vA, catW)] = some vD := by decide
  have hv2 : vD ∈ exCW.vars ∧ isAssigned [(vA, catW)] vD = false := ⟨by decide, by decide⟩
  rw [backtrack_sel_some exCW exD3 [(vA, catW)] vD hcomp hsel hv2]
  have hord : orderDomainValues exCW exD3 [(vA, catW)] vD = [beadW] := by decide
  rw [hord]
  have hconsB : consistent exCW ([(vA, catW)] ++ [(vD, beadW)]) = true := by decide
  have hbt : backtrack exCW
      (ac3 exCW exD3 (some ((neighbors exCW vD).map (fun x => (x, vD))))).2
      ([(vA, catW)] ++ [(vD, beadW)]) = (some exSol, exD4) := by
    have hsnd : (ac3 exCW exD3 (some ((neighbors exCW vD).map (fun x => (x, vD))))).2
        = exD4 := by
      rw [ac3_branchD_eval]
    rw [hsnd]
    have hcomp2 : assignmentComplete exCW ([(vA, catW)] ++ [(vD, beadW)]) = true := by
      decide
    rw [backtrack_complete exCW exD4 _ hcomp2]
    rfl
  rw [tryWords_cons_found exCW exD3 [(vA, catW)] vD hv2 beadW [] exSol exD4 hconsB hbt]

lemma solve_exCW_eval : (solve exCW).1 = some exSol := by
  rw [solve]
  have hsnd : (ac3 exCW (enforceNodeConsistency exCW (initDomains exCW)) none).2 = exD2 := by
    show (ac3 exCW exD0 none).2 = exD2
    rw [ac3_exCW_eval]
  rw [hsnd]
  have hcomp : assignmentComplete exCW ([] : Assignment) = false := by decide
  have hsel : selectUnassignedVariable exCW exD2 [] = some vA := by decide
  have hv : vA ∈ exCW.vars ∧ isAssigned ([] : Assignment) vA = false := ⟨by decide, by decide⟩
  rw [backtrack_sel_some exCW exD2 [] vA hcomp hsel hv]
  have hord : orderDomainValues exCW exD2 [] vA = [catW] := by decide
  rw [hord]
  have hcons : consistent exCW ([] ++ [(vA, catW)]) = true := by decide
  have hbt : backtrack exCW
      (ac3 exCW exD2 (some ((neighbors exCW vA).map (fun x => (x, vA))))).2
      ([] ++ [(vA, catW)]) = (some exSol, exD4) := by
    have hsnd2 : (ac3 exCW exD2 (some ((neighbors exCW vA).map (fun x => (x, vA))))).2
        = exD3 := by
      rw [ac3_branchA_eval]
    rw [hsnd2]
    show backtrack exCW exD3 [(vA, catW)] = (some exSol, exD4)
    exact backtrack_exCW_inner
  rw [tryWords_cons_found exCW exD2 [] vA hv catW [] exSol exD4 hcons hbt]


instance (c : Crossword) : Decidable (WF c) := by
  unfold WF
  infer_instance

instance (c : Crossword) (d : Domains) : Decidable (ArcConsistent c d) := by
  unfold ArcConsistent
  infer_instance

/-! Section: Witnesses and the C1 counterexample -/

/-- C1 counterexample: on `exCWFail` the full `ac3` run of `solve` reports
failure, yet `solve`'s result is by definition the result of invoking
`backtrack({})` on the post-`ac3` store — `backtrack` is invoked, refuting
"returns the no-solution signal without ever invoking backtrack". -/
theorem solve_invokes_backtrack_after_ac3_failure :
    (ac3 exCWFail (enforceNodeConsistency exCWFail (initDomains exCWFail)) none).1
      = false
  ∧ solve exCWFail =
      backtrack exCWFail
        (ac3 exCWFail (enforceNodeConsistency exCWFail (initDomains exCWFail)) none).2
        [] :=
  ⟨ac3_exCWFail_false, rfl⟩

/-- C1 witness: the amended claim instantiated on `exCWFail`. -/
theorem solve_none_of_ac3_failure_witness :
    WF exCWFail
  ∧ (ac3 exCWFail (enforceNodeConsistency exCWFail (initDomains exCWFail)) none).1
      = false
  ∧ (solve exCWFail).1 = none :=
  ⟨by decide, ac3_exCWFail_false,
    (solve_none_of_ac3_failure exCWFail (by decide) ac3_exCWFail_false).1⟩

/-- C2 witness: on the arc-consistent store `exDom` the whole search hands
back the store unchanged. -/
theorem backtrack_failed_branch_restores_store_witness :
    ArcConsistent exCW exDom ∧ (backtrack exCW exDom []).2 = exDom :=
  ⟨by decide,
    (backtrack_failed_branch_restores_store exCW exDom [] (by decide)).1⟩

/-- C3 witness: `solve` on `exCW` returns `exSol`, which is complete and
valid. -/
theorem solve_some_sound_witness :
    WF exCW ∧ (solve exCW).1 = some exSol
  ∧ ((∀ v ∈ exCW.vars, ∃ w, lookupA exSol v = some w ∧ w.length = v.length)
    ∧ (∀ x y wx wy ov, exCW.overlaps x y = some ov →
        lookupA exSol x = some wx → lookupA exSol y = some wy →
        wx[ov.1]? = wy[ov.2]?)
    ∧ (∀ x y wx wy, lookupA exSol x = some wx → lookupA exSol y = some wy →
        x ≠ y → wx ≠ wy)) :=
  ⟨by decide, solve_exCW_eval,
    solve_some_sound exCW (by decide) exSol solve_exCW_eval⟩

/-- C4 witness: on `exCWFail` the run fails and exhibits a domain emptied by
a revision. -/
theorem ac3_full_run_spec_witness :
    WF exCWFail
  ∧ (ac3 exCWFail (enforceNodeConsistency exCWFail (initDomains exCWFail)) none).1
      = false
  ∧ ∃ x ∈ exCWFail.vars,
      (ac3 exCWFail (enforceNodeConsistency exCWFail (initDomains exCWFail)) none).2 x
        = []
      ∧ enforceNodeConsistency exCWFail (initDomains exCWFail) x ≠ [] :=
  ⟨by decide, ac3_exCWFail_false,
    (ac3_full_run_spec exCWFail
      (enforceNodeConsistency exCWFail (initDomains exCWFail))
      (by decide)).2.1 ac3_exCWFail_false⟩

/-- C5 witness: `revise(vA, vD)` on `exCW` with the overlap `(1, 2)`. -/
theorem revise_spec_witness :
    WF exCW ∧ vA ∈ exCW.vars ∧ exCW.overlaps vA vD = some (1, 2)
  ∧ ((∀ w, w ∈ (revise exCW exDom vA vD).2 vA ↔
        (w ∈ exDom vA ∧ ∃ wy ∈ exDom vD, w[(1, 2).1]? = wy[(1, 2).2]?))
    ∧ (revise exCW exDom vA vD).2 vD = exDom vD
    ∧ (∀ z, z ≠ vA → (revise exCW exDom vA vD).2 z = exDom z)
    ∧ ((revise exCW exDom vA vD).1 = true ↔
        (revise exCW exDom vA vD).2 vA ≠ exDom vA)) :=
  ⟨by decide, by decide, by decide,
    (revise_spec exCW exDom vA vD (by decide) (by decide)).2 (1, 2) (by decide)⟩

/-- C6 witness: selection on the empty assignment over `exCW`. -/
theorem select_unassigned_variable_spec_witness :
    (∃ v ∈ exCW.vars, isAssigned ([] : Assignment) v = false)
  ∧ ∃ v, selectUnassignedVariable exCW exDom [] = some v ∧ v ∈ exCW.vars ∧
      isAssigned ([] : Assignment) v = false ∧
      (∀ u ∈ exCW.vars, isAssigned ([] : Assignment) u = false →
        (exDom v).length ≤ (exDom u).length) ∧
      (∀ u ∈ exCW.vars, isAssigned ([] : Assignment) u = false →
        (exDom u).length = (exDom v).length →
        (neighbors exCW u).length ≤ (neighbors exCW v).length) :=
  ⟨by decide, select_unassigned_variable_spec exCW exDom [] (by decide)⟩

/-- C8 witness: the partial assignment `exA1` on `exCW`. -/
theorem consistent_spec_witness :
    WF exCW ∧ (∀ p ∈ exA1, p.1 ∈ exCW.vars) ∧ (exA1.map Prod.fst).Nodup
  ∧ (consistent exCW exA1 = true ↔
      ((∀ p ∈ exA1, p.2.length = p.1.length)
      ∧ (∀ p ∈ exA1, ∀ q ∈ exA1, ∀ ov, exCW.overlaps p.1 q.1 = some ov →
          p.2[ov.1]? = q.2[ov.2]?)
      ∧ (exA1.map Prod.snd).Nodup)) :=
  ⟨by decide, by decide, by decide,
    consistent_spec exCW exA1 (by decide) (by decide) (by decide)⟩

/-- C9 witness: node consistency on the full vocabulary of `exCW`. -/
theorem enforce_node_consistency_spec_witness :
    exCW.vars.Nodup
  ∧ ((∀ v ∈ exCW.vars, ∀ w, w ∈ enforceNodeConsistency exCW (initDomains exCW) v ↔
        (w ∈ initDomains exCW v ∧ w.length = v.length))
    ∧ enforceNodeConsistency exCW (enforceNodeConsistency exCW (initDomains exCW)) =
        enforceNodeConsistency exCW (initDomains exCW)) :=
  ⟨by decide, enforce_node_consistency_spec exCW (initDomains exCW) (by decide)⟩

/-- C10 witness: on the empty assignment selection succeeds; the failure
value is tied to completeness. -/
theorem select_unassigned_variable_total_witness :
    assignmentComplete exCW ([] : Assignment) = false
  ∧ (∃ v, selectUnassignedVariable exCW exDom [] = some v)
  ∧ (selectUnassignedVariable exCW exDom [] = none ↔
      assignmentComplete exCW ([] : Assignment) = true) :=
  ⟨by decide, (select_unassigned_variable_total exCW exDom []).2 (by decide),
    (select_unassigned_variable_total exCW exDom []).1⟩

end CrosswordGen
